import Mathlib

/-
Verification of the spsc_fifo repository: a bounded circular FIFO queue.

The embedding models the final queue variant SpscFifo2 (spsc_fifo_2.hpp) and
the plain reference ring buffer Fifo (fifo.hpp) as pure state machines.

Modelling decisions, all taken from the source:
  * size_type is std::size_t on the target platform, an unsigned 64-bit
    integer; counters are Nat values kept below W = 2^64 and all counter
    arithmetic is performed modulo W (unsigned wraparound), exactly as the
    C++ does.  wsub models unsigned subtraction.
  * The element buffer is a list of length capacity_ holding Option values:
    some v is a live (constructed) element, none is raw storage.  Placement
    new writes some v into a slot; a destructor call writes none.  Reading a
    slot that holds none corresponds to reading a destroyed object.
  * push/pop return their C++ results: push returns bool, pop returns bool
    and (on success) the value copied out of the slot.
  * The destructor loop (while !isEmpty destroy slot, ++pop_pos_) is modelled
    by destructFrom with fuel getSize; the lemma destructFrom_eq_of_le shows
    the result is fuel independent once the fuel covers getSize, so this is
    exactly the while loop.
  * In C++20 the std::atomic counters of SpscFifo2 are value-initialized to
    zero, and the two cached counters have {} initializers.  Fifo declares
    its two plain counters without an initializer; they are modelled as zero,
    the value they receive under value-initialization and the evident intent
    (all later variants of the same class start at zero).
-/

/-- The number of values of the 64-bit unsigned counter type (2 ^ 64). -/
def W : Nat := 18446744073709551616

theorem W_eq_pow : W = 2 ^ 64 := by norm_num [W]

/-- Unsigned 64-bit subtraction: the value of a - b in size_type arithmetic.
Both operands of interest are < W; the inner % W makes the function total. -/
def wsub (a b : Nat) : Nat := (a + (W - b % W)) % W

/-- An operation applied to a queue: insert a value, or remove one. -/
inductive Op (α : Type) where
  | push : α → Op α
  | pop : Op α
deriving DecidableEq

/-- The observable outcome of one operation: the bool returned by push, or
the bool returned by pop together with the value written to the out
parameter (none when pop fails or the slot read held no live object). -/
inductive Res (α : Type) where
  | pushR : Bool → Res α
  | popR : Bool → Option α → Res α
deriving DecidableEq

/-- State of SpscFifo2<T> (spsc_fifo_2.hpp): capacity_, allocation_,
push_pos_, pop_pos_, and the two per-thread cached copies. -/
structure SpscFifo2 (α : Type) where
  capacity_ : Nat
  allocation_ : List (Option α)
  push_pos_ : Nat
  pop_pos_ : Nat
  push_pos_cached_ : Nat
  pop_pos_cached_ : Nat
deriving DecidableEq

namespace SpscFifo2

variable {α : Type}

/-- The constructor SpscFifo2(capacity): stores capacity_, allocates raw
storage for capacity_ elements (no element constructed), counters and the
cached copies start at zero.  The C++ constructor performs no validation of
the capacity argument. -/
def construct (capacity : Nat) : SpscFifo2 α :=
  { capacity_ := capacity
    allocation_ := List.replicate capacity none
    push_pos_ := 0
    pop_pos_ := 0
    push_pos_cached_ := 0
    pop_pos_cached_ := 0 }

/-- allocation_[pos % capacity_], the object (if live) at the slot addressed
by cursor value pos. -/
def readSlot (q : SpscFifo2 α) (pos : Nat) : Option α :=
  (q.allocation_[pos % q.capacity_]?).join

/-- getSize(): push_pos_ - pop_pos_ in unsigned arithmetic. -/
def getSize (q : SpscFifo2 α) : Nat := wsub q.push_pos_ q.pop_pos_

/-- isEmpty(): getSize() == 0. -/
def isEmpty (q : SpscFifo2 α) : Bool := q.getSize = 0

/-- isFull(): getSize() == capacity_. -/
def isFull (q : SpscFifo2 α) : Bool := q.getSize = q.capacity_

/-- push(value).  Loads push_pos_; if push_pos - pop_pos_cached_ == capacity_
it refreshes pop_pos_cached_ from pop_pos_ and re-checks, returning false if
still at capacity.  Otherwise it placement-constructs the value at slot
push_pos % capacity_ and stores push_pos + 1 into push_pos_.  The two inner
branches correspond to the refresh having happened (pop_pos_cached_ becomes
pop_pos_) before the second check. -/
def push (q : SpscFifo2 α) (value : α) : Bool × SpscFifo2 α :=
  if wsub q.push_pos_ q.pop_pos_cached_ = q.capacity_ then
    if wsub q.push_pos_ q.pop_pos_ = q.capacity_ then
      (false, { q with pop_pos_cached_ := q.pop_pos_ })
    else
      (true,
        { q with
            allocation_ := q.allocation_.set (q.push_pos_ % q.capacity_) (some value)
            push_pos_ := (q.push_pos_ + 1) % W
            pop_pos_cached_ := q.pop_pos_ })
  else
    (true,
      { q with
          allocation_ := q.allocation_.set (q.push_pos_ % q.capacity_) (some value)
          push_pos_ := (q.push_pos_ + 1) % W })

/-- pop(value).  Loads pop_pos_; if push_pos_cached_ == pop_pos it refreshes
push_pos_cached_ from push_pos_ and re-checks, returning false if still
equal.  Otherwise it copies the object at slot pop_pos % capacity_ into the
out parameter, destroys it, and stores pop_pos + 1 into pop_pos_. -/
def pop (q : SpscFifo2 α) : (Bool × Option α) × SpscFifo2 α :=
  if q.push_pos_cached_ = q.pop_pos_ then
    if q.push_pos_ = q.pop_pos_ then
      ((false, none), { q with push_pos_cached_ := q.push_pos_ })
    else
      ((true, q.readSlot q.pop_pos_),
        { q with
            allocation_ := q.allocation_.set (q.pop_pos_ % q.capacity_) none
            pop_pos_ := (q.pop_pos_ + 1) % W
            push_pos_cached_ := q.push_pos_ })
  else
    ((true, q.readSlot q.pop_pos_),
      { q with
          allocation_ := q.allocation_.set (q.pop_pos_ % q.capacity_) none
          pop_pos_ := (q.pop_pos_ + 1) % W })

/-- The destructor loop body applied repeatedly, bounded by a fuel argument:
while (!isEmpty()) { allocation_[pop_pos_ % capacity_].~T(); ++pop_pos_; }.
Returns the sequence of destroyed slot contents (in destruction order) and
the final state (destroyed slots cleared to none). -/
def destructFrom : Nat → SpscFifo2 α → List (Option α) × SpscFifo2 α
  | 0, q => ([], q)
  | fuel + 1, q =>
      if q.getSize = 0 then ([], q)
      else
        let d := q.readSlot q.pop_pos_
        let q2 : SpscFifo2 α :=
          { q with
              allocation_ := q.allocation_.set (q.pop_pos_ % q.capacity_) none
              pop_pos_ := (q.pop_pos_ + 1) % W }
        let r := destructFrom fuel q2
        (d :: r.1, r.2)

/-- The destructor ~SpscFifo2(): run the loop to completion.  getSize is an
exact fuel bound because each iteration decreases getSize by one
(getSize_after_inc below), so this is precisely the while loop. -/
def destruct (q : SpscFifo2 α) : List (Option α) × SpscFifo2 α :=
  destructFrom q.getSize q

/-- Run a list of operations, discarding the outcomes. -/
def runState : SpscFifo2 α → List (Op α) → SpscFifo2 α
  | q, [] => q
  | q, Op.push v :: ops => runState (q.push v).2 ops
  | q, Op.pop :: ops => runState q.pop.2 ops

/-- Run a list of operations, recording every outcome. -/
def runRes : SpscFifo2 α → List (Op α) → List (Res α)
  | _, [] => []
  | q, Op.push v :: ops => Res.pushR (q.push v).1 :: runRes (q.push v).2 ops
  | q, Op.pop :: ops => Res.popR q.pop.1.1 q.pop.1.2 :: runRes q.pop.2 ops

/-- The values inserted by the successful pushes, in order. -/
def pushedValues : SpscFifo2 α → List (Op α) → List α
  | _, [] => []
  | q, Op.push v :: ops =>
      if (q.push v).1 then v :: pushedValues (q.push v).2 ops
      else pushedValues (q.push v).2 ops
  | q, Op.pop :: ops => pushedValues q.pop.2 ops

/-- The values returned by the successful pops, in order (none marks a
successful pop that read a slot holding no live object). -/
def poppedValues : SpscFifo2 α → List (Op α) → List (Option α)
  | _, [] => []
  | q, Op.push v :: ops => poppedValues (q.push v).2 ops
  | q, Op.pop :: ops =>
      if q.pop.1.1 then q.pop.1.2 :: poppedValues q.pop.2 ops
      else poppedValues q.pop.2 ops

end SpscFifo2

/-- The number of push operations in a trace (successful or not). -/
def pushCount {α : Type} (ops : List (Op α)) : Nat :=
  (ops.filter fun o => match o with | Op.push _ => true | Op.pop => false).length

/-- The queue state reached from construction by a trace. -/
def qAfter (cap : Nat) (ops : List (Op Nat)) : SpscFifo2 Nat :=
  (SpscFifo2.construct cap).runState ops

/-- The successful push values of a trace from construction. -/
def pushedOf (cap : Nat) (ops : List (Op Nat)) : List Nat :=
  (SpscFifo2.construct cap).pushedValues ops

/-- The successful pop outputs of a trace from construction. -/
def poppedOf (cap : Nat) (ops : List (Op Nat)) : List (Option Nat) :=
  (SpscFifo2.construct cap).poppedValues ops

/-- State of the plain reference ring buffer Fifo<T> (fifo.hpp). -/
structure Fifo (α : Type) where
  capacity_ : Nat
  allocation_ : List (Option α)
  push_pos_ : Nat
  pop_pos_ : Nat
deriving DecidableEq

namespace Fifo

variable {α : Type}

/-- The Fifo constructor: stores capacity_ and allocates.  The C++ class
declares push_pos_ and pop_pos_ without initializers; they are modelled as
zero (the value under value-initialization, and the evident intent). -/
def construct (capacity : Nat) : Fifo α :=
  { capacity_ := capacity
    allocation_ := List.replicate capacity none
    push_pos_ := 0
    pop_pos_ := 0 }

/-- allocation_[pos % capacity_]. -/
def readSlot (f : Fifo α) (pos : Nat) : Option α :=
  (f.allocation_[pos % f.capacity_]?).join

/-- getSize(): push_pos_ - pop_pos_. -/
def getSize (f : Fifo α) : Nat := wsub f.push_pos_ f.pop_pos_

/-- isEmpty(): getSize() == 0. -/
def isEmpty (f : Fifo α) : Bool := f.getSize = 0

/-- isFull(): getSize() == capacity_. -/
def isFull (f : Fifo α) : Bool := f.getSize = f.capacity_

/-- push(value): fail if full, else construct at slot push_pos_ % capacity_
and increment push_pos_. -/
def push (f : Fifo α) (value : α) : Bool × Fifo α :=
  if f.getSize = f.capacity_ then (false, f)
  else
    (true,
      { f with
          allocation_ := f.allocation_.set (f.push_pos_ % f.capacity_) (some value)
          push_pos_ := (f.push_pos_ + 1) % W })

/-- pop(value): fail if empty, else copy out and destroy the object at slot
pop_pos_ % capacity_ and increment pop_pos_. -/
def pop (f : Fifo α) : (Bool × Option α) × Fifo α :=
  if f.getSize = 0 then ((false, none), f)
  else
    ((true, f.readSlot f.pop_pos_),
      { f with
          allocation_ := f.allocation_.set (f.pop_pos_ % f.capacity_) none
          pop_pos_ := (f.pop_pos_ + 1) % W })

/-- Run a list of operations on the reference Fifo, recording outcomes. -/
def runRes : Fifo α → List (Op α) → List (Res α)
  | _, [] => []
  | f, Op.push v :: ops => Res.pushR (f.push v).1 :: runRes (f.push v).2 ops
  | f, Op.pop :: ops => Res.popR f.pop.1.1 f.pop.1.2 :: runRes f.pop.2 ops

end Fifo

/-! ### Arithmetic helpers for 64-bit counter arithmetic -/

theorem wsub_mod (x y : Nat) (hxy : x ≤ y) (h : y - x < W) :
    wsub (y % W) (x % W) = y - x := by
  simp only [wsub, W] at *; omega

theorem wsub_small (x y : Nat) (hxy : x ≤ y) (hyW : y < W) : wsub y x = y - x := by
  simp only [wsub, W] at *; omega

theorem mod_succ_mod (a : Nat) : (a % W + 1) % W = (a + 1) % W := by
  simp only [W]; omega

theorem modW_eq_iff (x y cap : Nat) (hxy : x ≤ y) (hc : y - x ≤ cap) (hcW : cap < W) :
    y % W = x % W ↔ y = x := by
  simp only [W] at *; omega

theorem mod_cap_ne (cap x y : Nat) (hxy : x < y) (hy : y < x + cap) :
    x % cap ≠ y % cap := by
  intro h
  have hdvd : cap ∣ y - x := (Nat.modEq_iff_dvd' (Nat.le_of_lt hxy)).1 h
  have := Nat.le_of_dvd (by omega) hdvd
  omega

/-! ### List helpers -/

theorem getElem?_append_l {β : Type} (l1 l2 : List β) (k : Nat) (h : k < l1.length) :
    (l1 ++ l2)[k]? = l1[k]? := by
  rw [List.getElem?_append]; simp [h]

theorem eq_replicate_of_pointwise {β : Type} (l : List β) (a : β)
    (h : ∀ j, j < l.length → l[j]? = some a) : l = List.replicate l.length a := by
  induction l with
  | nil => rfl
  | cons b t ih =>
      have hb : b = a := by simpa using h 0 (by simp)
      have ht : t = List.replicate t.length a := by
        refine ih fun j hj => ?_
        simpa using h (j + 1) (by simpa using hj)
      rw [List.length_cons, List.replicate_succ, hb, ← ht]

/-! ### Ghost counters and the counter invariant

The ghost state tracks the unbounded totals: P pushes and Q pops have
succeeded so far, C is the (unbounded) pop total that the producer's cached
copy was last refreshed from, H the push total the consumer's cached copy
was last refreshed from.  The stored 64-bit counters are these totals mod W. -/

structure Ghost where
  cap : Nat
  P : Nat
  Q : Nat
  C : Nat
  H : Nat

/-- The counter invariant: relates a concrete SpscFifo2 state to ghost
totals.  It holds in every reachable state, with no bound on the totals
(counters may wrap). -/
structure CtrInv {α : Type} (q : SpscFifo2 α) (g : Ghost) : Prop where
  hcap : q.capacity_ = g.cap
  hcapW : g.cap < W
  hpush : q.push_pos_ = g.P % W
  hpop : q.pop_pos_ = g.Q % W
  hhc : q.push_pos_cached_ = g.H % W
  hpc : q.pop_pos_cached_ = g.C % W
  hQP : g.Q ≤ g.P
  hPQ : g.P ≤ g.Q + g.cap
  hCQ : g.C ≤ g.Q
  hPC : g.P ≤ g.C + g.cap
  hQH : g.Q ≤ g.H
  hHP : g.H ≤ g.P

namespace SpscFifo2

variable {α : Type}

theorem update_pc_self (q : SpscFifo2 α) :
    { q with pop_pos_cached_ := q.pop_pos_cached_ } = q := by
  cases q; rfl

theorem update_hc_self (q : SpscFifo2 α) :
    { q with push_pos_cached_ := q.push_pos_cached_ } = q := by
  cases q; rfl

/-- The state produced by a successful push, parameterized by the new value
of the producer's cached copy. -/
def pushedState (q : SpscFifo2 α) (v : α) (pc : Nat) : SpscFifo2 α :=
  { q with
      allocation_ := q.allocation_.set (q.push_pos_ % q.capacity_) (some v)
      push_pos_ := (q.push_pos_ + 1) % W
      pop_pos_cached_ := pc }

/-- The state produced by a successful pop, parameterized by the new value
of the consumer's cached copy. -/
def poppedState (q : SpscFifo2 α) (hc : Nat) : SpscFifo2 α :=
  { q with
      allocation_ := q.allocation_.set (q.pop_pos_ % q.capacity_) none
      pop_pos_ := (q.pop_pos_ + 1) % W
      push_pos_cached_ := hc }

/-- A push on a full queue fails and leaves every field unchanged (the
refresh rewrites pop_pos_cached_ with the value it already holds). -/
theorem push_full {q : SpscFifo2 α} {g : Ghost} (v : α)
    (hinv : CtrInv q g) (hfull : g.P = g.Q + g.cap) : q.push v = (false, q) := by
  obtain ⟨hcap, hcapW, hpush, hpop, hhc, hpc, hQP, hPQ, hCQ, hPC, hQH, hHP⟩ := hinv
  have hCQ2 : g.C = g.Q := by omega
  have hcond1 : wsub q.push_pos_ q.pop_pos_cached_ = q.capacity_ := by
    rw [hpush, hpc, hcap, wsub_mod _ _ (by omega) (by omega)]; omega
  have hcond2 : wsub q.push_pos_ q.pop_pos_ = q.capacity_ := by
    rw [hpush, hpop, hcap, wsub_mod _ _ (by omega) (by omega)]; omega
  have hqq : q.pop_pos_ = q.pop_pos_cached_ := by rw [hpop, hpc, hCQ2]
  have hupd : ({ q with pop_pos_cached_ := q.pop_pos_ } : SpscFifo2 α) = q :=
    (congrArg (fun x => { q with pop_pos_cached_ := x }) hqq).trans (update_pc_self q)
  rw [SpscFifo2.push, if_pos hcond1, if_pos hcond2, hupd]

/-- A push on a non-full queue succeeds; the cached copy either keeps its
ghost total C or is refreshed to the current pop total Q. -/
theorem push_notfull {q : SpscFifo2 α} {g : Ghost} (v : α)
    (hinv : CtrInv q g) (hnf : g.P < g.Q + g.cap) :
    ∃ C2, g.C ≤ C2 ∧ C2 ≤ g.Q ∧ g.P < C2 + g.cap ∧
      q.push v = (true, q.pushedState v (C2 % W)) ∧
      CtrInv (q.pushedState v (C2 % W)) ⟨g.cap, g.P + 1, g.Q, C2, g.H⟩ := by
  obtain ⟨hcap, hcapW, hpush, hpop, hhc, hpc, hQP, hPQ, hCQ, hPC, hQH, hHP⟩ := hinv
  by_cases hre : g.P - g.C = g.cap
  · -- the cached copy suggests full: refresh, then the second check passes
    have hcond1 : wsub q.push_pos_ q.pop_pos_cached_ = q.capacity_ := by
      rw [hpush, hpc, hcap, wsub_mod _ _ (by omega) (by omega)]; omega
    have hcond2 : ¬ wsub q.push_pos_ q.pop_pos_ = q.capacity_ := by
      rw [hpush, hpop, hcap, wsub_mod _ _ (by omega) (by omega)]; omega
    refine ⟨g.Q, hCQ, le_refl _, by omega, ?_, ?_⟩
    · rw [SpscFifo2.push, if_pos hcond1, if_neg hcond2, pushedState, ← hpop]
    · exact ⟨hcap, hcapW,
        show (q.push_pos_ + 1) % W = (g.P + 1) % W by rw [hpush, mod_succ_mod],
        hpop, hhc, rfl,
        show g.Q ≤ g.P + 1 by omega,
        show g.P + 1 ≤ g.Q + g.cap by omega,
        show g.Q ≤ g.Q from le_refl _,
        show g.P + 1 ≤ g.Q + g.cap by omega,
        hQH,
        show g.H ≤ g.P + 1 by omega⟩
  · -- the cached copy already shows space: no refresh
    have hcond1 : ¬ wsub q.push_pos_ q.pop_pos_cached_ = q.capacity_ := by
      rw [hpush, hpc, hcap, wsub_mod _ _ (by omega) (by omega)]; omega
    refine ⟨g.C, le_refl _, hCQ, by omega, ?_, ?_⟩
    · rw [SpscFifo2.push, if_neg hcond1, pushedState, ← hpc]
    · exact ⟨hcap, hcapW,
        show (q.push_pos_ + 1) % W = (g.P + 1) % W by rw [hpush, mod_succ_mod],
        hpop, hhc, rfl,
        show g.Q ≤ g.P + 1 by omega,
        show g.P + 1 ≤ g.Q + g.cap by omega,
        hCQ,
        show g.P + 1 ≤ g.C + g.cap by omega,
        hQH,
        show g.H ≤ g.P + 1 by omega⟩

/-- A pop on an empty queue fails, produces no value, and leaves every field
unchanged (the refresh rewrites push_pos_cached_ with its current value). -/
theorem pop_empty {q : SpscFifo2 α} {g : Ghost}
    (hinv : CtrInv q g) (hemp : g.P = g.Q) : q.pop = ((false, none), q) := by
  obtain ⟨hcap, hcapW, hpush, hpop, hhc, hpc, hQP, hPQ, hCQ, hPC, hQH, hHP⟩ := hinv
  have hHQ : g.H = g.Q := by omega
  have e1 : q.push_pos_cached_ = q.pop_pos_ := by rw [hhc, hpop, hHQ]
  have e2 : q.push_pos_ = q.pop_pos_ := by rw [hpush, hpop, hemp]
  have e3 : q.push_pos_ = q.push_pos_cached_ := by rw [e2, e1]
  have hupd : ({ q with push_pos_cached_ := q.push_pos_ } : SpscFifo2 α) = q :=
    (congrArg (fun x => { q with push_pos_cached_ := x }) e3).trans (update_hc_self q)
  rw [SpscFifo2.pop, if_pos e1, if_pos e2, hupd]

/-- A pop on a non-empty queue succeeds, returning the content of the slot
addressed by pop_pos_; the consumer's cached copy either keeps its ghost
total H or is refreshed to the current push total P. -/
theorem pop_nonempty {q : SpscFifo2 α} {g : Ghost}
    (hinv : CtrInv q g) (hne : g.Q < g.P) :
    ∃ H2, g.H ≤ H2 ∧ H2 ≤ g.P ∧ g.Q < H2 ∧
      q.pop = ((true, q.readSlot q.pop_pos_), q.poppedState (H2 % W)) ∧
      CtrInv (q.poppedState (H2 % W)) ⟨g.cap, g.P, g.Q + 1, g.C, H2⟩ := by
  obtain ⟨hcap, hcapW, hpush, hpop, hhc, hpc, hQP, hPQ, hCQ, hPC, hQH, hHP⟩ := hinv
  by_cases hHQ : g.H = g.Q
  · -- the cached copy suggests empty: refresh from push_pos_, re-check passes
    have e1 : q.push_pos_cached_ = q.pop_pos_ := by rw [hhc, hpop, hHQ]
    have e2 : ¬ q.push_pos_ = q.pop_pos_ := by
      rw [hpush, hpop]
      intro h
      exact absurd ((modW_eq_iff _ _ g.cap hQP (by omega) hcapW).1 h) (by omega)
    refine ⟨g.P, by omega, le_refl _, hne, ?_, ?_⟩
    · rw [SpscFifo2.pop, if_pos e1, if_neg e2, poppedState, ← hpush]
    · exact ⟨hcap, hcapW, hpush,
        show (q.pop_pos_ + 1) % W = (g.Q + 1) % W by rw [hpop, mod_succ_mod],
        rfl, hpc,
        show g.Q + 1 ≤ g.P by omega,
        show g.P ≤ g.Q + 1 + g.cap by omega,
        show g.C ≤ g.Q + 1 by omega,
        hPC,
        show g.Q + 1 ≤ g.P by omega,
        show g.P ≤ g.P from le_refl _⟩
  · -- the cached copy already shows a pending element: no refresh
    have e1 : ¬ q.push_pos_cached_ = q.pop_pos_ := by
      rw [hhc, hpop]
      intro h
      exact absurd ((modW_eq_iff _ _ g.cap hQH (by omega) hcapW).1 h) hHQ
    refine ⟨g.H, le_refl _, hHP, by omega, ?_, ?_⟩
    · rw [SpscFifo2.pop, if_neg e1, poppedState, ← hhc]
    · exact ⟨hcap, hcapW, hpush,
        show (q.pop_pos_ + 1) % W = (g.Q + 1) % W by rw [hpop, mod_succ_mod],
        rfl, hpc,
        show g.Q + 1 ≤ g.P by omega,
        show g.P ≤ g.Q + 1 + g.cap by omega,
        show g.C ≤ g.Q + 1 by omega,
        hPC,
        show g.Q + 1 ≤ g.H by omega,
        hHP⟩

end SpscFifo2

namespace SpscFifo2

variable {α : Type}

/-! ### Trace bookkeeping lemmas -/

theorem runState_append (q : SpscFifo2 α) (l1 l2 : List (Op α)) :
    q.runState (l1 ++ l2) = (q.runState l1).runState l2 := by
  induction l1 generalizing q with
  | nil => rfl
  | cons o t ih => cases o <;> simp only [List.cons_append, runState] <;> exact ih _

theorem pushedValues_append (q : SpscFifo2 α) (l1 l2 : List (Op α)) :
    q.pushedValues (l1 ++ l2) = q.pushedValues l1 ++ (q.runState l1).pushedValues l2 := by
  induction l1 generalizing q with
  | nil => rfl
  | cons o t ih =>
      cases o with
      | push v =>
          simp only [List.cons_append, pushedValues, runState]
          by_cases h : (q.push v).1 <;> simp [h, ih]
      | pop => simp only [List.cons_append, pushedValues, runState]; exact ih _

theorem poppedValues_append (q : SpscFifo2 α) (l1 l2 : List (Op α)) :
    q.poppedValues (l1 ++ l2) = q.poppedValues l1 ++ (q.runState l1).poppedValues l2 := by
  induction l1 generalizing q with
  | nil => rfl
  | cons o t ih =>
      cases o with
      | push v => simp only [List.cons_append, poppedValues, runState]; exact ih _
      | pop =>
          simp only [List.cons_append, poppedValues, runState]
          by_cases h : q.pop.1.1 <;> simp [h, ih]

/-! ### The counter invariant holds along every run (counters may wrap) -/

theorem runState_cons_push (q : SpscFifo2 α) (v : α) (t : List (Op α)) :
    q.runState (Op.push v :: t) = (q.push v).2.runState t := rfl

theorem runState_cons_pop (q : SpscFifo2 α) (t : List (Op α)) :
    q.runState (Op.pop :: t) = q.pop.2.runState t := rfl

theorem pushedValues_cons_true {q : SpscFifo2 α} {v : α} (t : List (Op α))
    (h : (q.push v).1 = true) :
    q.pushedValues (Op.push v :: t) = v :: (q.push v).2.pushedValues t := by
  simp [pushedValues, h]

theorem pushedValues_cons_false {q : SpscFifo2 α} {v : α} (t : List (Op α))
    (h : (q.push v).1 = false) :
    q.pushedValues (Op.push v :: t) = (q.push v).2.pushedValues t := by
  simp [pushedValues, h]

theorem pushedValues_cons_pop (q : SpscFifo2 α) (t : List (Op α)) :
    q.pushedValues (Op.pop :: t) = q.pop.2.pushedValues t := rfl

theorem poppedValues_cons_push (q : SpscFifo2 α) (v : α) (t : List (Op α)) :
    q.poppedValues (Op.push v :: t) = (q.push v).2.poppedValues t := rfl

theorem poppedValues_cons_true {q : SpscFifo2 α} (t : List (Op α))
    (h : q.pop.1.1 = true) :
    q.poppedValues (Op.pop :: t) = q.pop.1.2 :: q.pop.2.poppedValues t := by
  simp [poppedValues, h]

theorem poppedValues_cons_false {q : SpscFifo2 α} (t : List (Op α))
    (h : q.pop.1.1 = false) :
    q.poppedValues (Op.pop :: t) = q.pop.2.poppedValues t := by
  simp [poppedValues, h]

/-- Running any trace from a state satisfying the counter invariant yields a
state satisfying it again; the ghost totals grow by exactly the numbers of
successful pushes and pops. -/
theorem run_ctr (ops : List (Op α)) :
    ∀ (q : SpscFifo2 α) (g : Ghost), CtrInv q g →
      ∃ g2, CtrInv (q.runState ops) g2 ∧ g2.cap = g.cap ∧
        g2.P = g.P + (q.pushedValues ops).length ∧
        g2.Q = g.Q + (q.poppedValues ops).length ∧
        g.C ≤ g2.C ∧ g.H ≤ g2.H := by
  induction ops with
  | nil =>
      exact fun q g h =>
        ⟨g, h, rfl, by simp [pushedValues], by simp [poppedValues], le_refl _, le_refl _⟩
  | cons o t ih =>
      intro q g h
      cases o with
      | push v =>
          by_cases hfull : g.P = g.Q + g.cap
          · have hp := push_full v h hfull
            have hb : (q.push v).1 = false := by rw [hp]
            have hs : (q.push v).2 = q := by rw [hp]
            obtain ⟨g2, h2, e0, e1, e2, e3, e4⟩ := ih q g h
            refine ⟨g2, ?_, e0, ?_, ?_, e3, e4⟩
            · rw [runState_cons_push, hs]; exact h2
            · rw [pushedValues_cons_false t hb, hs]; exact e1
            · rw [poppedValues_cons_push, hs]; exact e2
          · have hnf : g.P < g.Q + g.cap := Nat.lt_of_le_of_ne h.hPQ hfull
            obtain ⟨C2, hc1, hc2, hc3, hp, hinv2⟩ := push_notfull v h hnf
            have hb : (q.push v).1 = true := by rw [hp]
            have hs : (q.push v).2 = q.pushedState v (C2 % W) := by rw [hp]
            obtain ⟨g2, h2, e0, e1, e2, e3, e4⟩ := ih _ _ hinv2
            have e0a : g2.cap = g.cap := e0
            have e1a : g2.P = (g.P + 1) + ((q.pushedState v (C2 % W)).pushedValues t).length := e1
            have e2a : g2.Q = g.Q + ((q.pushedState v (C2 % W)).poppedValues t).length := e2
            have e3a : C2 ≤ g2.C := e3
            have e4a : g.H ≤ g2.H := e4
            refine ⟨g2, ?_, e0a, ?_, ?_, le_trans hc1 e3a, e4a⟩
            · rw [runState_cons_push, hs]; exact h2
            · rw [pushedValues_cons_true t hb, hs, List.length_cons]; omega
            · rw [poppedValues_cons_push, hs]; exact e2a
      | pop =>
          by_cases hemp : g.P = g.Q
          · have hp := pop_empty h hemp
            have hb : q.pop.1.1 = false := by rw [hp]
            have hs : q.pop.2 = q := by rw [hp]
            obtain ⟨g2, h2, e0, e1, e2, e3, e4⟩ := ih q g h
            refine ⟨g2, ?_, e0, ?_, ?_, e3, e4⟩
            · rw [runState_cons_pop, hs]; exact h2
            · rw [pushedValues_cons_pop, hs]; exact e1
            · rw [poppedValues_cons_false t hb, hs]; exact e2
          · have hne : g.Q < g.P := Nat.lt_of_le_of_ne h.hQP (fun hh => hemp hh.symm)
            obtain ⟨H2, hh1, hh2, hh3, hp, hinv2⟩ := pop_nonempty h hne
            have hb : q.pop.1.1 = true := by rw [hp]
            have hs : q.pop.2 = q.poppedState (H2 % W) := by rw [hp]
            obtain ⟨g2, h2, e0, e1, e2, e3, e4⟩ := ih _ _ hinv2
            have e0a : g2.cap = g.cap := e0
            have e1a : g2.P = g.P + ((q.poppedState (H2 % W)).pushedValues t).length := e1
            have e2a : g2.Q = (g.Q + 1) + ((q.poppedState (H2 % W)).poppedValues t).length := e2
            have e3a : g.C ≤ g2.C := e3
            have e4a : H2 ≤ g2.H := e4
            refine ⟨g2, ?_, e0a, ?_, ?_, e3a, le_trans hh1 e4a⟩
            · rw [runState_cons_pop, hs]; exact h2
            · rw [pushedValues_cons_pop, hs]; exact e1a
            · rw [poppedValues_cons_true t hb, hs, List.length_cons]; omega

/-- The counter invariant holds in the freshly constructed queue. -/
theorem ctrInv_construct (cap : Nat) (hcapW : cap < W) :
    CtrInv (construct cap : SpscFifo2 α) ⟨cap, 0, 0, 0, 0⟩ :=
  ⟨rfl, hcapW, rfl, rfl, rfl, rfl, le_refl _, Nat.zero_le _, le_refl _, Nat.zero_le _,
    le_refl _, le_refl _⟩

end SpscFifo2

/-! ### The buffer invariant

BufInv characterizes the allocation_ contents of a reachable state in terms
of ghost totals P (pushes) and Q (pops) and the list es of elements still in
the queue, oldest first: slot (Q + k) % capacity_ holds es[k], every other
slot is raw storage (none).  It additionally requires P ≤ W: once the push
total passes W the stored cursor has wrapped and, when the capacity does not
divide W, the slot map (cursor % W) % capacity changes alignment, which is
exactly the regime of the wraparound counterexamples below. -/

structure BufInv {α : Type} (q : SpscFifo2 α) (P Q : Nat) (es : List α) : Prop where
  hcapW : q.capacity_ < W
  hPW : P ≤ W
  hQP : Q ≤ P
  hcap : P ≤ Q + q.capacity_
  hpush : q.push_pos_ = P % W
  hpop : q.pop_pos_ = Q % W
  hlen : q.allocation_.length = q.capacity_
  hes : es.length + Q = P
  hwin : ∀ k e, es[k]? = some e → q.allocation_[(Q + k) % q.capacity_]? = some (some e)
  hfree : ∀ j, j < q.capacity_ →
    (∀ k, k < es.length → (Q + k) % q.capacity_ ≠ j) → q.allocation_[j]? = some none

namespace SpscFifo2

variable {α : Type}

theorem bufInv_construct (cap : Nat) (hcapW : cap < W) :
    BufInv (construct cap : SpscFifo2 α) 0 0 [] := by
  refine ⟨hcapW, Nat.zero_le _, le_refl _, Nat.zero_le _, rfl, rfl, by simp [construct], rfl,
    ?_, ?_⟩
  · intro k e he; simp at he
  · intro j hj _
    simp only [construct]
    rw [List.getElem?_replicate, if_pos (show j < cap from hj)]

/-- A successful push appends its value to the window: buffer step. -/
theorem bufInv_push {q : SpscFifo2 α} {P Q : Nat} {es : List α} (v : α) (pc : Nat)
    (hb : BufInv q P Q es) (hPW : P < W) (hnf : P < Q + q.capacity_) :
    BufInv (q.pushedState v pc) (P + 1) Q (es ++ [v]) := by
  obtain ⟨hcapW, _, hQP, hcap, hpush, hpop, hlen, hes, hwin, hfree⟩ := hb
  have hcappos : 0 < q.capacity_ := by omega
  have hPmod : P % W = P := Nat.mod_eq_of_lt hPW
  have hslot : q.push_pos_ % q.capacity_ = P % q.capacity_ := by rw [hpush, hPmod]
  refine ⟨hcapW, by omega, by omega, show P + 1 ≤ Q + q.capacity_ by omega,
    show (q.push_pos_ + 1) % W = (P + 1) % W by rw [hpush, mod_succ_mod],
    hpop,
    show (q.allocation_.set (q.push_pos_ % q.capacity_) (some v)).length = q.capacity_
      by rw [List.length_set]; exact hlen,
    show (es ++ [v]).length + Q = P + 1 by simp; omega, ?_, ?_⟩
  · -- window: old elements undisturbed, the new one at slot P % capacity
    intro k e he
    have hklen : k < es.length + 1 := by
      by_contra hk
      rw [List.getElem?_eq_none (by simpa using Nat.le_of_not_lt hk)] at he
      exact Option.noConfusion he
    show (q.allocation_.set (q.push_pos_ % q.capacity_) (some v))[(Q + k) % q.capacity_]? =
      some (some e)
    by_cases hk : k < es.length
    · have hne : (Q + k) % q.capacity_ ≠ P % q.capacity_ := by
        have := mod_cap_ne q.capacity_ (Q + k) P (by omega) (by omega)
        exact this
      rw [hslot, List.getElem?_set_ne (fun hcontra => hne hcontra.symm)]
      exact hwin k e (by rwa [getElem?_append_l es [v] k hk] at he)
    · have hkeq : k = es.length := by omega
      subst hkeq
      have hev : v = e := by
        rw [List.getElem?_append_right (le_refl _)] at he
        simpa using he
      subst hev
      have : (Q + es.length) % q.capacity_ = P % q.capacity_ := by
        rw [show Q + es.length = P by omega]
      rw [this, hslot, List.getElem?_set_self (by rw [hlen]; exact Nat.mod_lt _ hcappos)]
  · -- slots outside the new window are still raw
    intro j hj hout
    show (q.allocation_.set (q.push_pos_ % q.capacity_) (some v))[j]? = some none
    have hPj : P % q.capacity_ ≠ j := by
      have := hout es.length (by simp)
      rwa [show Q + es.length = P by omega] at this
    rw [hslot, List.getElem?_set_ne hPj]
    exact hfree j hj fun k hk => hout k (by simp; omega)

/-- A successful pop removes the head of the window: buffer step. -/
theorem bufInv_pop {q : SpscFifo2 α} {P Q : Nat} {e : α} {es : List α} (hc : Nat)
    (hb : BufInv q P Q (e :: es)) :
    q.readSlot q.pop_pos_ = some e ∧ BufInv (q.poppedState hc) P (Q + 1) es := by
  obtain ⟨hcapW, hPW, hQP, hcap, hpush, hpop, hlen, hes, hwin, hfree⟩ := hb
  have hQP2 : Q < P := by simp at hes; omega
  have hQW : Q < W := by omega
  have hQmod : Q % W = Q := Nat.mod_eq_of_lt hQW
  have hcappos : 0 < q.capacity_ := by simp at hes; omega
  have hlen2 : (e :: es).length + Q = P := hes
  simp only [List.length_cons] at hlen2
  have hslot : q.pop_pos_ % q.capacity_ = Q % q.capacity_ := by rw [hpop, hQmod]
  have hhead : q.allocation_[Q % q.capacity_]? = some (some e) := by
    have := hwin 0 e (by simp)
    simpa using this
  constructor
  · show (q.allocation_[q.pop_pos_ % q.capacity_]?).join = some e
    rw [hslot, hhead]
    rfl
  · refine ⟨hcapW, hPW, by omega, show P ≤ Q + 1 + q.capacity_ by omega, hpush,
      show (q.pop_pos_ + 1) % W = (Q + 1) % W by rw [hpop, mod_succ_mod],
      show (q.allocation_.set (q.pop_pos_ % q.capacity_) none).length = q.capacity_
        by rw [List.length_set]; exact hlen,
      show es.length + (Q + 1) = P by omega, ?_, ?_⟩
    · -- remaining elements keep their slots
      intro k e2 he2
      have hk : k < es.length := by
        by_contra hk
        rw [List.getElem?_eq_none (Nat.le_of_not_lt hk)] at he2
        exact Option.noConfusion he2
      show (q.allocation_.set (q.pop_pos_ % q.capacity_) none)[(Q + 1 + k) % q.capacity_]? =
        some (some e2)
      have hne : Q % q.capacity_ ≠ (Q + 1 + k) % q.capacity_ := by
        refine mod_cap_ne q.capacity_ Q (Q + 1 + k) (by omega) (by omega)
      rw [hslot, List.getElem?_set_ne hne]
      have := hwin (k + 1) e2 (by simpa using he2)
      rwa [show Q + (k + 1) = Q + 1 + k by omega] at this
    · -- the vacated slot and all previously raw slots are raw
      intro j hj hout
      show (q.allocation_.set (q.pop_pos_ % q.capacity_) none)[j]? = some none
      by_cases hQj : Q % q.capacity_ = j
      · rw [hslot, hQj, List.getElem?_set_self (by rw [hlen]; exact hj)]
      · rw [hslot, List.getElem?_set_ne hQj]
        refine hfree j hj fun k hk => ?_
        cases k with
        | zero => simpa using hQj
        | succ k2 =>
            have := hout k2 (by simp at hk ⊢; omega)
            rwa [show Q + 1 + k2 = Q + (k2 + 1) by omega] at this

end SpscFifo2

namespace SpscFifo2

variable {α : Type}

/-- Master run lemma: from a state satisfying both invariants, running any
trace whose pushes fit below the wraparound bound preserves both invariants;
the queue content es evolves exactly as the abstract FIFO list, and the pop
outputs are the head of (es ++ pushed values) taken in order. -/
theorem run_master (ops : List (Op α)) :
    ∀ (q : SpscFifo2 α) (g : Ghost) (es : List α),
      CtrInv q g → BufInv q g.P g.Q es →
      g.P + pushCount ops ≤ W →
      ∃ g2 es2 m,
        CtrInv (q.runState ops) g2 ∧ BufInv (q.runState ops) g2.P g2.Q es2 ∧
        g2.cap = g.cap ∧
        g2.P = g.P + (q.pushedValues ops).length ∧
        m ≤ (es ++ q.pushedValues ops).length ∧
        q.poppedValues ops = ((es ++ q.pushedValues ops).take m).map some ∧
        es2 = (es ++ q.pushedValues ops).drop m := by
  induction ops with
  | nil =>
      intro q g es hc hb _
      have h1 : q.pushedValues [] = [] := rfl
      have h2 : q.poppedValues [] = [] := rfl
      refine ⟨g, es, 0, hc, hb, rfl, ?_, ?_, ?_, ?_⟩ <;> simp [h1, h2]
  | cons o t ih =>
      intro q g es hc hb hW
      have hcapq : q.capacity_ = g.cap := hc.hcap
      cases o with
      | push v =>
          have hWt : g.P + 1 + pushCount t ≤ W := by
            simp only [pushCount, List.filter_cons] at hW ⊢
            simp at hW
            omega
          by_cases hfull : g.P = g.Q + g.cap
          · have hp := push_full v hc hfull
            have hb1 : (q.push v).1 = false := by rw [hp]
            have hs : (q.push v).2 = q := by rw [hp]
            obtain ⟨g2, es2, m, hc2, hb2, e0, e1, e2, e3, e4⟩ := ih q g es hc hb (by omega)
            refine ⟨g2, es2, m, ?_, ?_, e0, ?_, ?_, ?_, ?_⟩
            · rw [runState_cons_push, hs]; exact hc2
            · rw [runState_cons_push, hs]; exact hb2
            · rw [pushedValues_cons_false t hb1, hs]; exact e1
            · rw [pushedValues_cons_false t hb1, hs]; exact e2
            · rw [poppedValues_cons_push, pushedValues_cons_false t hb1, hs]; exact e3
            · rw [pushedValues_cons_false t hb1, hs]; exact e4
          · have hnf : g.P < g.Q + g.cap := Nat.lt_of_le_of_ne hc.hPQ hfull
            obtain ⟨C2, hc1, hc2x, hc3, hp, hinv2⟩ := push_notfull v hc hnf
            have hb1 : (q.push v).1 = true := by rw [hp]
            have hs : (q.push v).2 = q.pushedState v (C2 % W) := by rw [hp]
            have hbuf2 : BufInv (q.pushedState v (C2 % W)) (g.P + 1) g.Q (es ++ [v]) :=
              bufInv_push v (C2 % W) hb (by omega) (by rw [hcapq]; omega)
            obtain ⟨g2, es2, m, hc2, hb2, e0, e1, e2, e3, e4⟩ :=
              ih (q.pushedState v (C2 % W)) ⟨g.cap, g.P + 1, g.Q, C2, g.H⟩ (es ++ [v])
                hinv2 hbuf2 (by exact hWt)
            have e0a : g2.cap = g.cap := e0
            have e1a : g2.P = (g.P + 1) + ((q.pushedState v (C2 % W)).pushedValues t).length := e1
            refine ⟨g2, es2, m, ?_, ?_, e0a, ?_, ?_, ?_, ?_⟩
            · rw [runState_cons_push, hs]; exact hc2
            · rw [runState_cons_push, hs]; exact hb2
            · rw [pushedValues_cons_true t hb1, hs, List.length_cons]; omega
            · rw [pushedValues_cons_true t hb1, hs]
              simpa [List.append_assoc] using e2
            · rw [poppedValues_cons_push, pushedValues_cons_true t hb1, hs]
              simpa [List.append_assoc] using e3
            · rw [pushedValues_cons_true t hb1, hs]
              simpa [List.append_assoc] using e4
      | pop =>
          have hWt : g.P + pushCount t ≤ W := by
            simp only [pushCount, List.filter_cons] at hW ⊢
            simpa using hW
          by_cases hemp : g.P = g.Q
          · have hp := pop_empty hc hemp
            have hb1 : q.pop.1.1 = false := by rw [hp]
            have hs : q.pop.2 = q := by rw [hp]
            obtain ⟨g2, es2, m, hc2, hb2, e0, e1, e2, e3, e4⟩ := ih q g es hc hb hWt
            refine ⟨g2, es2, m, ?_, ?_, e0, ?_, ?_, ?_, ?_⟩
            · rw [runState_cons_pop, hs]; exact hc2
            · rw [runState_cons_pop, hs]; exact hb2
            · rw [pushedValues_cons_pop, hs]; exact e1
            · rw [pushedValues_cons_pop, hs]; exact e2
            · rw [poppedValues_cons_false t hb1, pushedValues_cons_pop, hs]; exact e3
            · rw [pushedValues_cons_pop, hs]; exact e4
          · have hne : g.Q < g.P := Nat.lt_of_le_of_ne hc.hQP (fun hh => hemp hh.symm)
            obtain ⟨H2, hh1, hh2, hh3, hp, hinv2⟩ := pop_nonempty hc hne
            have hb1 : q.pop.1.1 = true := by rw [hp]
            have hs : q.pop.2 = q.poppedState (H2 % W) := by rw [hp]
            obtain ⟨e, es', hes⟩ : ∃ e es', es = e :: es' := by
              cases es with
              | nil =>
                  exfalso
                  have := hb.hes
                  simp at this
                  omega
              | cons e es' => exact ⟨e, es', rfl⟩
            subst hes
            obtain ⟨hread, hbuf2⟩ := bufInv_pop (H2 % W) hb
            have hval : q.pop.1.2 = some e := by rw [hp]; exact hread
            obtain ⟨g2, es2, m, hc2, hb2, e0, e1, e2, e3, e4⟩ :=
              ih (q.poppedState (H2 % W)) ⟨g.cap, g.P, g.Q + 1, g.C, H2⟩ es'
                hinv2 hbuf2 hWt
            have e0a : g2.cap = g.cap := e0
            have e1a : g2.P = g.P + ((q.poppedState (H2 % W)).pushedValues t).length := e1
            refine ⟨g2, es2, m + 1, ?_, ?_, e0a, ?_, ?_, ?_, ?_⟩
            · rw [runState_cons_pop, hs]; exact hc2
            · rw [runState_cons_pop, hs]; exact hb2
            · rw [pushedValues_cons_pop, hs]; exact e1a
            · rw [pushedValues_cons_pop, hs]
              simp only [List.cons_append, List.length_cons]
              omega
            · rw [poppedValues_cons_true t hb1, pushedValues_cons_pop, hs, hval]
              simp only [List.cons_append, List.take_succ_cons, List.map_cons]
              rw [e3]
            · rw [pushedValues_cons_pop, hs]
              simp only [List.cons_append, List.drop_succ_cons]
              exact e4

end SpscFifo2

namespace SpscFifo2

variable {α : Type}

/-- Incrementing pop_pos_ decreases getSize by one when the queue is
non-empty (any allocation contents). -/
theorem getSize_inc_pop (q : SpscFifo2 α) (al : List (Option α)) (h : q.getSize ≠ 0) :
    SpscFifo2.getSize
      { q with allocation_ := al, pop_pos_ := (q.pop_pos_ + 1) % W } = q.getSize - 1 := by
  simp only [getSize, wsub, W] at *
  omega

/-- Any fuel at least getSize computes the same destructor run: the fuelled
recursion is exactly the while loop of ~SpscFifo2. -/
theorem destructFrom_fuel (fuel : Nat) :
    ∀ q : SpscFifo2 α, q.getSize ≤ fuel → destructFrom fuel q = q.destruct := by
  induction fuel with
  | zero =>
      intro q h
      have h0 : q.getSize = 0 := Nat.le_zero.1 h
      rw [destruct, h0]
  | succ fuel ih =>
      intro q h
      by_cases h0 : q.getSize = 0
      · rw [destruct, h0]
        simp only [destructFrom, if_pos h0]
      · obtain ⟨n, hn⟩ : ∃ n, q.getSize = n + 1 :=
          ⟨q.getSize - 1, by omega⟩
        have hq2 : SpscFifo2.getSize
            { q with allocation_ := q.allocation_.set (q.pop_pos_ % q.capacity_) none,
                     pop_pos_ := (q.pop_pos_ + 1) % W } = n := by
          rw [getSize_inc_pop q _ h0, hn]
          omega
        rw [destruct, hn]
        simp only [destructFrom, if_neg h0]
        rw [ih _ (by omega), destruct, hq2]

/-- The destructor on a state satisfying the buffer invariant destroys
exactly the queued elements, oldest first, and leaves every slot raw. -/
theorem destructFrom_spec (es : List α) :
    ∀ (q : SpscFifo2 α) (P Q : Nat), BufInv q P Q es →
      (destructFrom es.length q).1 = es.map some ∧
      (destructFrom es.length q).2.allocation_ = List.replicate q.capacity_ none := by
  induction es with
  | nil =>
      intro q P Q hb
      refine ⟨rfl, ?_⟩
      have hall : q.allocation_ = List.replicate q.allocation_.length none :=
        eq_replicate_of_pointwise _ _ fun j hj =>
          hb.hfree j (by rw [← hb.hlen]; exact hj) (fun k hk => by simp at hk)
      show ((destructFrom 0 q).2).allocation_ = List.replicate q.capacity_ none
      rw [show (destructFrom 0 q).2 = q from rfl, ← hb.hlen]
      exact hall
  | cons e es2 ih =>
      intro q P Q hb
      obtain ⟨hread, hb2⟩ := bufInv_pop q.push_pos_cached_ hb
      have hq2 : ({ q with
          allocation_ := q.allocation_.set (q.pop_pos_ % q.capacity_) none,
          pop_pos_ := (q.pop_pos_ + 1) % W } : SpscFifo2 α) =
          q.poppedState q.push_pos_cached_ := by
        cases q; rfl
      have hsz : ¬ q.getSize = 0 := by
        have h1 : q.getSize = P - Q := by
          rw [getSize, hb.hpush, hb.hpop]
          exact wsub_mod _ _ hb.hQP (by have := hb.hcap; have := hb.hcapW; omega)
        have h2 := hb.hes
        simp only [List.length_cons] at h2
        omega
      obtain ⟨ih1, ih2⟩ := ih (q.poppedState q.push_pos_cached_) P (Q + 1) hb2
      have hcapeq : (q.poppedState q.push_pos_cached_).capacity_ = q.capacity_ := rfl
      constructor
      · show (destructFrom (es2.length + 1) q).1 = _
        simp only [destructFrom, if_neg hsz, hq2]
        rw [hread, ih1, List.map_cons]
      · show (destructFrom (es2.length + 1) q).2.allocation_ = _
        simp only [destructFrom, if_neg hsz, hq2]
        rw [ih2, hcapeq]

/-- The destructor of a state satisfying the buffer invariant: contents of
the run expressed through destruct itself. -/
theorem destruct_spec {q : SpscFifo2 α} {P Q : Nat} {es : List α} (hb : BufInv q P Q es) :
    q.destruct.1 = es.map some ∧
    q.destruct.2.allocation_ = List.replicate q.capacity_ none := by
  have hsz : q.getSize = es.length := by
    rw [getSize, hb.hpush, hb.hpop,
      wsub_mod _ _ hb.hQP (by have := hb.hcap; have := hb.hcapW; omega)]
    have := hb.hes
    omega
  rw [destruct, hsz]
  exact destructFrom_spec es q P Q hb

end SpscFifo2

/-! ### Equivalence with the plain reference ring buffer -/

/-- Correspondence between an SpscFifo2 state and a Fifo state: identical
capacity, buffer, and cursors (the reference class has no cached copies). -/
structure FifoMatch {α : Type} (q : SpscFifo2 α) (f : Fifo α) : Prop where
  hcap : f.capacity_ = q.capacity_
  halloc : f.allocation_ = q.allocation_
  hpush : f.push_pos_ = q.push_pos_
  hpop : f.pop_pos_ = q.pop_pos_

/-- Used sequentially, SpscFifo2 and the reference Fifo produce identical
outcome sequences on every trace: the cached-counter pre-checks never change
a push/pop decision, only avoid re-reads. -/
theorem run_equiv {α : Type} (ops : List (Op α)) :
    ∀ (q : SpscFifo2 α) (f : Fifo α) (g : Ghost),
      CtrInv q g → FifoMatch q f → q.runRes ops = f.runRes ops := by
  induction ops with
  | nil => intro q f g _ _; rfl
  | cons o t ih =>
      intro q f g hc hm
      have hsz : f.getSize = g.P - g.Q := by
        rw [Fifo.getSize, hm.hpush, hm.hpop, hc.hpush, hc.hpop]
        exact wsub_mod _ _ hc.hQP (by have := hc.hPQ; have := hc.hcapW; omega)
      cases o with
      | push v =>
          by_cases hfull : g.P = g.Q + g.cap
          · have hp := SpscFifo2.push_full v hc hfull
            have hf : f.push v = (false, f) := by
              rw [Fifo.push, if_pos (by rw [hsz, hm.hcap, hc.hcap]; omega)]
            rw [SpscFifo2.runRes, Fifo.runRes, hp, hf]
            exact congrArg _ (ih q f g hc hm)
          · have hnf : g.P < g.Q + g.cap := Nat.lt_of_le_of_ne hc.hPQ hfull
            obtain ⟨C2, _, _, _, hp, hinv2⟩ := SpscFifo2.push_notfull v hc hnf
            have hf : f.push v =
                (true,
                  { f with
                      allocation_ := f.allocation_.set (f.push_pos_ % f.capacity_) (some v)
                      push_pos_ := (f.push_pos_ + 1) % W }) := by
              rw [Fifo.push,
                if_neg (by rw [hsz, hm.hcap, hc.hcap]; have := hc.hQP; omega)]
            rw [SpscFifo2.runRes, Fifo.runRes, hp, hf]
            refine congrArg _ (ih _ _ _ hinv2 ?_)
            exact ⟨hm.hcap, by
                show f.allocation_.set (f.push_pos_ % f.capacity_) (some v) =
                  q.allocation_.set (q.push_pos_ % q.capacity_) (some v)
                rw [hm.halloc, hm.hpush, hm.hcap],
              by show (f.push_pos_ + 1) % W = (q.push_pos_ + 1) % W; rw [hm.hpush],
              by show f.pop_pos_ = q.pop_pos_; exact hm.hpop⟩
      | pop =>
          by_cases hemp : g.P = g.Q
          · have hp := SpscFifo2.pop_empty hc hemp
            have hf : f.pop = ((false, none), f) := by
              rw [Fifo.pop, if_pos (by rw [hsz]; omega)]
            rw [SpscFifo2.runRes, Fifo.runRes, hp, hf]
            exact congrArg _ (ih q f g hc hm)
          · have hne : g.Q < g.P := Nat.lt_of_le_of_ne hc.hQP (fun hh => hemp hh.symm)
            obtain ⟨H2, _, _, _, hp, hinv2⟩ := SpscFifo2.pop_nonempty hc hne
            have hval : f.readSlot f.pop_pos_ = q.readSlot q.pop_pos_ := by
              rw [Fifo.readSlot, SpscFifo2.readSlot, hm.halloc, hm.hpop, hm.hcap]
            have hf : f.pop =
                ((true, f.readSlot f.pop_pos_),
                  { f with
                      allocation_ := f.allocation_.set (f.pop_pos_ % f.capacity_) none
                      pop_pos_ := (f.pop_pos_ + 1) % W }) := by
              rw [Fifo.pop, if_neg (by rw [hsz]; omega)]
            rw [SpscFifo2.runRes, Fifo.runRes, hp, hf, hval]
            refine congrArg _ (ih _ _ _ hinv2 ?_)
            exact ⟨hm.hcap, by
                show f.allocation_.set (f.pop_pos_ % f.capacity_) none =
                  q.allocation_.set (q.pop_pos_ % q.capacity_) none
                rw [hm.halloc, hm.hpop, hm.hcap],
              by show f.push_pos_ = q.push_pos_; exact hm.hpush,
              by show (f.pop_pos_ + 1) % W = (q.pop_pos_ + 1) % W; rw [hm.hpop]⟩

/-! ### Wraparound traces

A capacity-3 queue driven with alternating push/pop until push_pos_ reaches
W - 1 = 2^64 - 1.  Because 3 does not divide 2^64, after the cursor wraps the
slot map (cursor % W) % 3 changes alignment: the element pushed at cursor
W - 1 lands in slot 0 and the next push (cursor 0) lands in slot 0 again,
overwriting a live element.  These traces are astronomically long but
finite, so they are legitimate inputs to the universally quantified claims. -/

/-- Three raw slots. -/
def bufN : List (Option Nat) := [none, none, none]

/-- The recurring state shape of the alternating trace: capacity 3, empty
buffer, push_pos_ = pop_pos_ = push_pos_cached_ = n, pop_pos_cached_ = c. -/
def S (n c : Nat) : SpscFifo2 Nat := ⟨3, bufN, n, n, n, c⟩

/-- n rounds of push 0 then pop. -/
def pairs : Nat → List (Op Nat)
  | 0 => []
  | n + 1 => pairs n ++ [Op.push 0, Op.pop]

theorem set_none_bufN (j : Nat) (hj : j < 3) : bufN.set j none = bufN := by
  interval_cases j <;> rfl

theorem push_step_S (n c : Nat) (hc : c ≤ n) (hn : n ≤ c + 3) (hW : n + 1 < W) :
    (S n c).push 0 =
      (true, ⟨3, bufN.set (n % 3) (some 0), n + 1, n, n, if n = c + 3 then n else c⟩) := by
  have hnW : n < W := by omega
  have hwc : wsub n c = n - c := wsub_small c n hc hnW
  by_cases hfull : n = c + 3
  · have h1 : wsub (S n c).push_pos_ (S n c).pop_pos_cached_ = (S n c).capacity_ := by
      show wsub n c = 3
      rw [hwc]; omega
    have h2 : ¬ wsub (S n c).push_pos_ (S n c).pop_pos_ = (S n c).capacity_ := by
      show ¬ wsub n n = 3
      rw [wsub_small n n (le_refl n) hnW]; omega
    rw [SpscFifo2.push, if_pos h1, if_neg h2, if_pos hfull]
    show (true, (⟨3, bufN.set (n % 3) (some 0), (n + 1) % W, n, n, n⟩ : SpscFifo2 Nat)) = _
    rw [Nat.mod_eq_of_lt hW]
  · have h1 : ¬ wsub (S n c).push_pos_ (S n c).pop_pos_cached_ = (S n c).capacity_ := by
      show ¬ wsub n c = 3
      rw [hwc]; omega
    rw [SpscFifo2.push, if_neg h1, if_neg hfull]
    show (true, (⟨3, bufN.set (n % 3) (some 0), (n + 1) % W, n, n, c⟩ : SpscFifo2 Nat)) = _
    rw [Nat.mod_eq_of_lt hW]

theorem pop_step_S (n pc : Nat) (hW : n + 1 < W) :
    SpscFifo2.pop (⟨3, bufN.set (n % 3) (some 0), n + 1, n, n, pc⟩ : SpscFifo2 Nat) =
      ((true, some 0), ⟨3, bufN, n + 1, n + 1, n + 1, pc⟩) := by
  have hmod : n % 3 < 3 := Nat.mod_lt _ (by norm_num)
  have h1 : (⟨3, bufN.set (n % 3) (some 0), n + 1, n, n, pc⟩ :
      SpscFifo2 Nat).push_pos_cached_ =
      (⟨3, bufN.set (n % 3) (some 0), n + 1, n, n, pc⟩ : SpscFifo2 Nat).pop_pos_ := rfl
  have h2 : ¬ (⟨3, bufN.set (n % 3) (some 0), n + 1, n, n, pc⟩ :
      SpscFifo2 Nat).push_pos_ =
      (⟨3, bufN.set (n % 3) (some 0), n + 1, n, n, pc⟩ : SpscFifo2 Nat).pop_pos_ := by
    show ¬ n + 1 = n
    omega
  rw [SpscFifo2.pop, if_pos h1, if_neg h2]
  have hval : SpscFifo2.readSlot
      (⟨3, bufN.set (n % 3) (some 0), n + 1, n, n, pc⟩ : SpscFifo2 Nat) n = some 0 := by
    show ((bufN.set (n % 3) (some 0))[n % 3]?).join = some 0
    rw [List.getElem?_set_self (by simpa [bufN] using hmod)]
    rfl
  rw [show SpscFifo2.readSlot _ _ = some 0 from hval]
  show (_, (⟨3, (bufN.set (n % 3) (some 0)).set (n % 3) none, n + 1, (n + 1) % W,
    n + 1, pc⟩ : SpscFifo2 Nat)) = _
  rw [List.set_set, set_none_bufN _ hmod, Nat.mod_eq_of_lt hW]

theorem pair_run (n c : Nat) (hc : c ≤ n) (hn : n ≤ c + 3) (hW : n + 1 < W) :
    (S n c).runState [Op.push 0, Op.pop] = S (n + 1) (if n = c + 3 then n else c) ∧
    (S n c).pushedValues [Op.push 0, Op.pop] = [0] ∧
    (S n c).poppedValues [Op.push 0, Op.pop] = [some 0] := by
  have hpu := push_step_S n c hc hn hW
  have hpo := pop_step_S n (if n = c + 3 then n else c) hW
  refine ⟨?_, ?_, ?_⟩
  · rw [SpscFifo2.runState_cons_push, hpu]
    show SpscFifo2.runState _ [Op.pop] = _
    rw [SpscFifo2.runState_cons_pop, hpo]
    rfl
  · rw [SpscFifo2.pushedValues_cons_true _ (by rw [hpu]), hpu]
    show 0 :: SpscFifo2.pushedValues _ [Op.pop] = [0]
    rw [SpscFifo2.pushedValues_cons_pop, hpo]
    rfl
  · rw [SpscFifo2.poppedValues_cons_push, hpu]
    show SpscFifo2.poppedValues _ [Op.pop] = [some 0]
    rw [SpscFifo2.poppedValues_cons_true _ (by rw [hpo]), hpo]
    rfl

theorem pairs_state (n : Nat) (hn : n < W) :
    (SpscFifo2.construct 3).runState (pairs n) = S n (3 * ((n - 1) / 3)) ∧
    (SpscFifo2.construct 3).pushedValues (pairs n) = List.replicate n 0 ∧
    (SpscFifo2.construct 3).poppedValues (pairs n) = List.replicate n (some 0) := by
  induction n with
  | zero => exact ⟨rfl, rfl, rfl⟩
  | succ n ih =>
      obtain ⟨ih1, ih2, ih3⟩ := ih (by omega)
      have hc1 : 3 * ((n - 1) / 3) ≤ n := by omega
      have hc2 : n ≤ 3 * ((n - 1) / 3) + 3 := by omega
      obtain ⟨hr, hpu, hpo⟩ := pair_run n (3 * ((n - 1) / 3)) hc1 hc2 hn
      have hite : (if n = 3 * ((n - 1) / 3) + 3 then n else 3 * ((n - 1) / 3)) =
          3 * ((n + 1 - 1) / 3) := by
        by_cases h : n = 3 * ((n - 1) / 3) + 3
        · rw [if_pos h]; omega
        · rw [if_neg h]; omega
      refine ⟨?_, ?_, ?_⟩
      · show (SpscFifo2.construct 3).runState (pairs n ++ [Op.push 0, Op.pop]) = _
        rw [SpscFifo2.runState_append, ih1, hr, hite]
      · show (SpscFifo2.construct 3).pushedValues (pairs n ++ [Op.push 0, Op.pop]) = _
        rw [SpscFifo2.pushedValues_append, ih2, ih1, hpu, ← List.replicate_succ' n 0]
      · show (SpscFifo2.construct 3).poppedValues (pairs n ++ [Op.push 0, Op.pop]) = _
        rw [SpscFifo2.poppedValues_append, ih3, ih1, hpo, ← List.replicate_succ' n (some 0)]

/-- The state after pairs (W - 1): all cursors at W - 1, producer cache at
W - 4, buffer empty. -/
def qBig : SpscFifo2 Nat := ⟨3, bufN, W - 1, W - 1, W - 1, W - 4⟩

/-- The three operations appended after the long alternating trace: two
pushes (the second lands on the first element's slot after the cursor wraps)
and one pop. -/
def tailOps : List (Op Nat) := [Op.push 10, Op.push 20, Op.pop]

/-- A finite trace on which SpscFifo2 of capacity 3 loses an element to
cursor wraparound. -/
def badOps : List (Op Nat) := pairs (W - 1) ++ tailOps

theorem qBig_reached : (SpscFifo2.construct 3).runState (pairs (W - 1)) = qBig := by
  have h := (pairs_state (W - 1) (by simp only [W]; omega)).1
  rw [h]
  show S (W - 1) (3 * ((W - 1 - 1) / 3)) = qBig
  rw [show 3 * ((W - 1 - 1) / 3) = W - 4 from by decide]
  rfl

theorem pairs_pushed :
    (SpscFifo2.construct 3).pushedValues (pairs (W - 1)) = List.replicate (W - 1) 0 :=
  (pairs_state (W - 1) (by simp only [W]; omega)).2.1

theorem pairs_popped :
    (SpscFifo2.construct 3).poppedValues (pairs (W - 1)) = List.replicate (W - 1) (some 0) :=
  (pairs_state (W - 1) (by simp only [W]; omega)).2.2

theorem qBig_tail_pushed : qBig.pushedValues tailOps = [10, 20] := by decide

theorem qBig_tail_popped : qBig.poppedValues tailOps = [some 20] := by decide

theorem qBig_tail_state :
    qBig.runState tailOps = ⟨3, bufN, 1, 0, 1, W - 1⟩ := by decide

/-! ### Claim-level statements -/

namespace SpscFifo2

variable {α : Type}

/-- Successful pushes never outnumber push operations. -/
theorem pushedValues_length_le (q : SpscFifo2 α) (ops : List (Op α)) :
    (q.pushedValues ops).length ≤ pushCount ops := by
  induction ops generalizing q with
  | nil => exact le_refl _
  | cons o t ih =>
      cases o with
      | push v =>
          have hcount : pushCount (Op.push v :: t) = pushCount t + 1 := by
            simp [pushCount]
          by_cases h : (q.push v).1
          · rw [pushedValues_cons_true t h, List.length_cons, hcount]
            exact Nat.add_le_add_right (ih _) 1
          · rw [pushedValues_cons_false t (by simpa using h), hcount]
            exact le_trans (ih _) (Nat.le_succ _)
      | pop =>
          have hcount : pushCount (Op.pop :: t) = pushCount t := by simp [pushCount]
          rw [pushedValues_cons_pop, hcount]
          exact ih _

/-- In a state satisfying the buffer invariant with space available and the
write cursor unwrapped, the push target slot is raw. -/
theorem push_target_free {q : SpscFifo2 α} {P Q : Nat} {es : List α}
    (hb : BufInv q P Q es) (hPW : P < W) (hnf : P < Q + q.capacity_)
    (hcap : 0 < q.capacity_) : q.readSlot q.push_pos_ = none := by
  have hlen : es.length + Q = P := hb.hes
  have hlencap : es.length < q.capacity_ := by omega
  show (q.allocation_[q.push_pos_ % q.capacity_]?).join = none
  rw [hb.hpush, Nat.mod_eq_of_lt hPW]
  rw [hb.hfree (P % q.capacity_) (Nat.mod_lt _ hcap)
    (fun k hk => mod_cap_ne q.capacity_ (Q + k) P (by omega) (by omega))]
  rfl

/-- In a state satisfying the buffer invariant with a queued element, the pop
source slot holds the oldest element. -/
theorem pop_source_live {q : SpscFifo2 α} {P Q : Nat} {e : α} {es : List α}
    (hb : BufInv q P Q (e :: es)) : q.readSlot q.pop_pos_ = some e :=
  (bufInv_pop 0 hb).1

end SpscFifo2

/-- The FIFO-order property of claim C1: the sequence of values returned by
successful pops equals the sequence of successfully pushed values taken from
the front, in order — no value skipped, duplicated, or reordered, and every
successful pop reads a defined (live) value. -/
def fifoOrderClaim (cap : Nat) (ops : List (Op Nat)) : Prop :=
  poppedOf cap ops = ((pushedOf cap ops).take (poppedOf cap ops).length).map some

/-- C1 (amended): strict FIFO order holds for every finite single-threaded
trace on a queue of positive capacity in which at most 2^64 push operations
occur, so that the 64-bit write cursor never wraps past its initial
alignment.  (The unamended claim, quantifying over all finite traces, fails:
see the counterexample.) -/
theorem C1_fifo_order (cap : Nat) (ops : List (Op Nat)) (_hcap : 0 < cap)
    (hcapW : cap < W) (hops : pushCount ops ≤ W) : fifoOrderClaim cap ops := by
  obtain ⟨g2, es2, m, hc2, hb2, hgcap, hP, hm, hpop, hdrop⟩ :=
    SpscFifo2.run_master ops (SpscFifo2.construct cap) ⟨cap, 0, 0, 0, 0⟩ []
      (SpscFifo2.ctrInv_construct cap hcapW) (SpscFifo2.bufInv_construct cap hcapW)
      (by show 0 + pushCount ops ≤ W; omega)
  unfold fifoOrderClaim poppedOf pushedOf
  simp only [List.nil_append] at hpop
  rw [hpop, List.length_map, List.length_take]
  congr 1
  rw [List.take_eq_take]
  omega

/-- C1 witness trace: a small interleaving where FIFO order is observable. -/
theorem C1_fifo_order_witness :
    0 < 2 ∧ pushCount [Op.push 5, Op.pop, Op.push 6, Op.pop] ≤ W ∧
    fifoOrderClaim 2 [Op.push 5, Op.pop, Op.push 6, Op.pop] :=
  ⟨by decide, by decide,
    C1_fifo_order 2 [Op.push 5, Op.pop, Op.push 6, Op.pop] (by decide) (by decide) (by decide)⟩

/-- C1 counterexample: on the finite trace badOps (capacity 3, 2^64 - 1
push/pop rounds, then push 10, push 20, pop) the final pop returns 20: the
value 10 was overwritten when the wrapped cursor remapped to slot 0, so the
popped sequence skips a value and strict FIFO order fails. -/
theorem C1_counterexample : ¬ fifoOrderClaim 3 badOps := by
  intro h
  unfold fifoOrderClaim poppedOf pushedOf badOps at h
  rw [SpscFifo2.poppedValues_append, SpscFifo2.pushedValues_append, qBig_reached,
    pairs_popped, pairs_pushed, qBig_tail_popped, qBig_tail_pushed] at h
  rw [List.length_append, List.length_replicate] at h
  rw [show List.replicate (W - 1) (some (0 : Nat)) ++ [some 20] =
      List.replicate (W - 1) (some (0 : Nat)) ++ [some 20] from rfl] at h
  rw [show (W - 1) + [some (20 : Nat)].length =
      (List.replicate (W - 1) (0 : Nat)).length + 1 from by simp] at h
  rw [List.take_append, List.map_append, List.map_replicate] at h
  have h2 := List.append_cancel_left h
  rw [show ([10, 20] : List Nat).take 1 = [10] from rfl] at h2
  exact absurd h2 (by decide)

/-- C2: in every reachable state the occupied count push_pos_ - pop_pos_,
computed in unsigned 64-bit arithmetic, is at most the capacity (and, being
a Nat, at least 0); the stored cursors equal the monotonically growing
totals of successful pushes and pops reduced mod 2^64, and those totals only
grow as the trace is extended.  This holds with no bound on the trace
length: it survives counter wraparound. -/
theorem C2_capacity_bound (cap : Nat) (ops more : List (Op Nat)) (hcapW : cap < W) :
    (qAfter cap ops).getSize ≤ cap ∧
    (qAfter cap ops).push_pos_ = (pushedOf cap ops).length % W ∧
    (qAfter cap ops).pop_pos_ = (poppedOf cap ops).length % W ∧
    (poppedOf cap ops).length ≤ (pushedOf cap ops).length ∧
    (qAfter cap ops).getSize = (pushedOf cap ops).length - (poppedOf cap ops).length ∧
    (pushedOf cap ops).length ≤ (pushedOf cap (ops ++ more)).length ∧
    (poppedOf cap ops).length ≤ (poppedOf cap (ops ++ more)).length := by
  obtain ⟨g2, hc2, hgcap, hP, hQ, _, _⟩ :=
    SpscFifo2.run_ctr ops (SpscFifo2.construct cap) ⟨cap, 0, 0, 0, 0⟩
      (SpscFifo2.ctrInv_construct cap hcapW)
  have hP2 : g2.P = 0 + (pushedOf cap ops).length := hP
  have hQ2 : g2.Q = 0 + (poppedOf cap ops).length := hQ
  have hgcap2 : g2.cap = cap := hgcap
  have hsize : (qAfter cap ops).getSize = g2.P - g2.Q := by
    show wsub (qAfter cap ops).push_pos_ (qAfter cap ops).pop_pos_ = _
    unfold qAfter
    rw [hc2.hpush, hc2.hpop]
    exact wsub_mod _ _ hc2.hQP
      (by have := hc2.hPQ; have := hc2.hcapW; omega)
  have hQP := hc2.hQP
  have hPQ := hc2.hPQ
  refine ⟨?_, ?_, ?_, ?_, ?_, ?_, ?_⟩
  · rw [hsize]; omega
  · show (qAfter cap ops).push_pos_ = _
    unfold qAfter
    rw [hc2.hpush, hP2, Nat.zero_add]
  · show (qAfter cap ops).pop_pos_ = _
    unfold qAfter
    rw [hc2.hpop, hQ2, Nat.zero_add]
  · omega
  · rw [hsize]; omega
  · unfold pushedOf
    rw [SpscFifo2.pushedValues_append, List.length_append]
    omega
  · unfold poppedOf
    rw [SpscFifo2.poppedValues_append, List.length_append]
    omega

/-- C2 witness. -/
theorem C2_capacity_bound_witness :
    1 < W ∧ (qAfter 1 [Op.push 3, Op.push 4]).getSize ≤ 1 :=
  ⟨by decide, (C2_capacity_bound 1 [Op.push 3, Op.push 4] [Op.pop] (by decide)).1⟩

/-- C3: in every reachable state, a push on a full queue returns false and
modifies no field of the queue (the refresh of pop_pos_cached_ rewrites the
value it already holds), and a pop on an empty queue returns false, writes
nothing to the out parameter, and modifies no field; there are no partial
successes. -/
theorem C3_failure_is_noop (cap : Nat) (ops : List (Op Nat)) (hcapW : cap < W) :
    ((qAfter cap ops).getSize = cap →
      ∀ v : Nat, (qAfter cap ops).push v = (false, qAfter cap ops)) ∧
    ((qAfter cap ops).getSize = 0 →
      (qAfter cap ops).pop = ((false, none), qAfter cap ops)) := by
  obtain ⟨g2, hc2, hgcap, _, _, _, _⟩ :=
    SpscFifo2.run_ctr ops (SpscFifo2.construct cap) ⟨cap, 0, 0, 0, 0⟩
      (SpscFifo2.ctrInv_construct cap hcapW)
  have hgcap2 : g2.cap = cap := hgcap
  have hsize : (qAfter cap ops).getSize = g2.P - g2.Q := by
    show wsub (qAfter cap ops).push_pos_ (qAfter cap ops).pop_pos_ = _
    unfold qAfter
    rw [hc2.hpush, hc2.hpop]
    exact wsub_mod _ _ hc2.hQP (by have := hc2.hPQ; have := hc2.hcapW; omega)
  have hQP := hc2.hQP
  constructor
  · intro hfull v
    have hP : g2.P = g2.Q + g2.cap := by rw [hsize] at hfull; omega
    show (qAfter cap ops).push v = _
    unfold qAfter
    exact SpscFifo2.push_full v hc2 hP
  · intro hemp
    have hP : g2.P = g2.Q := by rw [hsize] at hemp; omega
    show (qAfter cap ops).pop = _
    unfold qAfter
    exact SpscFifo2.pop_empty hc2 hP

/-- C3 witness: a full capacity-1 queue rejects a push unchanged; a fresh
queue rejects a pop unchanged. -/
theorem C3_failure_is_noop_witness :
    (qAfter 1 [Op.push 7]).push 5 = (false, qAfter 1 [Op.push 7]) ∧
    (qAfter 1 []).pop = ((false, none), qAfter 1 []) :=
  ⟨(C3_failure_is_noop 1 [Op.push 7] (by decide)).1 (by decide) 5,
    (C3_failure_is_noop 1 [] (by decide)).2 (by decide)⟩

/-- The slot-lifecycle property of claim C5 at one reachable state: a push
that succeeds constructs into a slot holding no live element, and a pop that
succeeds reads a slot holding a live element. -/
def slotLifecycleOK (cap : Nat) (ops : List (Op Nat)) (v : Nat) : Prop :=
  (((qAfter cap ops).push v).1 = true →
    (qAfter cap ops).readSlot (qAfter cap ops).push_pos_ = none) ∧
  ((qAfter cap ops).pop.1.1 = true →
    ((qAfter cap ops).readSlot (qAfter cap ops).pop_pos_).isSome = true)

/-- C5 (amended): as long as fewer than 2^64 push operations have occurred
(the write cursor has not wrapped), every successful push constructs into a
raw slot — so at most one live element ever occupies a slot — and every
successful pop destroys a live slot, exactly once.  (Across wraparound the
unamended claim fails: see the counterexample.) -/
theorem C5_slot_lifecycle (cap : Nat) (ops : List (Op Nat)) (v : Nat) (hcap : 0 < cap)
    (hcapW : cap < W) (hops : pushCount ops < W) : slotLifecycleOK cap ops v := by
  obtain ⟨g2, es2, m, hc2, hb2, hgcap, hP, hm, hpop, hdrop⟩ :=
    SpscFifo2.run_master ops (SpscFifo2.construct cap) ⟨cap, 0, 0, 0, 0⟩ []
      (SpscFifo2.ctrInv_construct cap hcapW) (SpscFifo2.bufInv_construct cap hcapW)
      (by show 0 + pushCount ops ≤ W; omega)
  have hgcap2 : g2.cap = cap := hgcap
  have hP2 : g2.P = 0 + ((SpscFifo2.construct cap).pushedValues ops).length := hP
  have hle := SpscFifo2.pushedValues_length_le (SpscFifo2.construct cap) ops
  have hPW : g2.P < W := by omega
  have hqcap : ((SpscFifo2.construct cap).runState ops).capacity_ = cap := by
    rw [hc2.hcap, hgcap2]
  constructor
  · intro hsucc
    by_cases hfull : g2.P = g2.Q + g2.cap
    · exfalso
      have hp := SpscFifo2.push_full (q := (SpscFifo2.construct cap).runState ops) v hc2 hfull
      rw [show ((qAfter cap ops).push v).1 = false from by unfold qAfter; rw [hp]] at hsucc
      exact Bool.noConfusion hsucc
    · have hnf : g2.P < g2.Q + g2.cap := Nat.lt_of_le_of_ne hc2.hPQ hfull
      show (qAfter cap ops).readSlot (qAfter cap ops).push_pos_ = none
      unfold qAfter
      exact SpscFifo2.push_target_free hb2 hPW (by rw [hqcap]; omega) (by rw [hqcap]; omega)
  · intro hsucc
    by_cases hemp : g2.P = g2.Q
    · exfalso
      have hp := SpscFifo2.pop_empty (q := (SpscFifo2.construct cap).runState ops) hc2 hemp
      rw [show (qAfter cap ops).pop.1.1 = false from by unfold qAfter; rw [hp]] at hsucc
      exact Bool.noConfusion hsucc
    · have hne : g2.Q < g2.P := Nat.lt_of_le_of_ne hc2.hQP (fun hh => hemp hh.symm)
      obtain ⟨e, es3, he⟩ : ∃ e es3, es2 = e :: es3 := by
        cases es2 with
        | nil => exfalso; have := hb2.hes; simp at this; omega
        | cons e es3 => exact ⟨e, es3, rfl⟩
      rw [he] at hb2
      show ((qAfter cap ops).readSlot (qAfter cap ops).pop_pos_).isSome = true
      unfold qAfter
      rw [SpscFifo2.pop_source_live hb2]
      rfl

/-- C5 witness. -/
theorem C5_slot_lifecycle_witness :
    0 < 1 ∧ pushCount [Op.push 9] < W ∧ slotLifecycleOK 1 [Op.push 9] 7 :=
  ⟨by decide, by decide, C5_slot_lifecycle 1 [Op.push 9] 7 (by decide) (by decide) (by decide)⟩

/-- The reachable pre-state of the C5/C6-style overwrite: the long
alternating trace followed by one push, which lands 10 in slot 0 with the
write cursor wrapped to 0. -/
def overOps : List (Op Nat) := pairs (W - 1) ++ [Op.push 10]

theorem overOps_state :
    qAfter 3 overOps = ⟨3, [some 10, none, none], 0, W - 1, W - 1, W - 1⟩ := by
  unfold qAfter overOps
  rw [SpscFifo2.runState_append, qBig_reached]
  decide

/-- C5 counterexample: in the reachable state after overOps, the next push
of 20 succeeds (the queue genuinely has space) yet its target slot 0 still
holds the live element 10 — the element is overwritten without ever being
destroyed, so a slot briefly carries a second construction per cycle and an
element is lost.  The claim, quantified over all reachable states with
cursors increasing without bound mod 2^64, is therefore false. -/
theorem C5_counterexample : ¬ slotLifecycleOK 3 overOps 20 := by
  intro h
  obtain ⟨h1, _⟩ := h
  rw [show qAfter 3 overOps = ⟨3, [some 10, none, none], 0, W - 1, W - 1, W - 1⟩
    from overOps_state] at h1
  exact absurd (h1 (by decide)) (by decide)

/-- C6: shadow-cursor safety in every reachable state (no bound on trace
length).  The producer's view of the occupancy through its cached copy,
wsub push_pos_ pop_pos_cached_, is at least the true occupancy and at most
the capacity — the cached copy is a previous (hence not larger) pop total,
so the pre-check only under-reports free space.  Symmetrically the
consumer's view wsub push_pos_cached_ pop_pos_ is at most the true
occupancy: stale caches only under-report available elements.  Consequently
a push that proceeds is on a genuinely non-full queue and a pop that
proceeds is on a genuinely non-empty queue: the worst case of staleness is a
spurious rejection, never a pre-check-enabled overwrite. -/
theorem C6_shadow_safety (cap : Nat) (ops : List (Op Nat)) (hcapW : cap < W) :
    ((qAfter cap ops).getSize ≤ wsub (qAfter cap ops).push_pos_ (qAfter cap ops).pop_pos_cached_) ∧
    (wsub (qAfter cap ops).push_pos_ (qAfter cap ops).pop_pos_cached_ ≤ cap) ∧
    (wsub (qAfter cap ops).push_pos_cached_ (qAfter cap ops).pop_pos_ ≤ (qAfter cap ops).getSize) ∧
    (∀ v : Nat, ((qAfter cap ops).push v).1 = true → (qAfter cap ops).getSize < cap) ∧
    ((qAfter cap ops).pop.1.1 = true → 0 < (qAfter cap ops).getSize) := by
  obtain ⟨g2, hc2, hgcap, _, _, _, _⟩ :=
    SpscFifo2.run_ctr ops (SpscFifo2.construct cap) ⟨cap, 0, 0, 0, 0⟩
      (SpscFifo2.ctrInv_construct cap hcapW)
  have hgcap2 : g2.cap = cap := hgcap
  have hQP := hc2.hQP
  have hPQ := hc2.hPQ
  have hCQ := hc2.hCQ
  have hPC := hc2.hPC
  have hQH := hc2.hQH
  have hHP := hc2.hHP
  have hcapW2 := hc2.hcapW
  have hsize : (qAfter cap ops).getSize = g2.P - g2.Q := by
    show wsub (qAfter cap ops).push_pos_ (qAfter cap ops).pop_pos_ = _
    unfold qAfter
    rw [hc2.hpush, hc2.hpop]
    exact wsub_mod _ _ hQP (by omega)
  have hprod : wsub (qAfter cap ops).push_pos_ (qAfter cap ops).pop_pos_cached_ =
      g2.P - g2.C := by
    unfold qAfter
    rw [hc2.hpush, hc2.hpc]
    exact wsub_mod _ _ (by omega) (by omega)
  have hcons : wsub (qAfter cap ops).push_pos_cached_ (qAfter cap ops).pop_pos_ =
      g2.H - g2.Q := by
    unfold qAfter
    rw [hc2.hhc, hc2.hpop]
    exact wsub_mod _ _ hQH (by omega)
  refine ⟨?_, ?_, ?_, ?_, ?_⟩
  · rw [hsize, hprod]; omega
  · rw [hprod]; omega
  · rw [hsize, hcons]; omega
  · intro v hsucc
    by_cases hfull : g2.P = g2.Q + g2.cap
    · exfalso
      have hp := SpscFifo2.push_full (q := (SpscFifo2.construct cap).runState ops) v hc2 hfull
      rw [show ((qAfter cap ops).push v).1 = false from by unfold qAfter; rw [hp]] at hsucc
      exact Bool.noConfusion hsucc
    · rw [hsize]; have := Nat.lt_of_le_of_ne hPQ hfull; omega
  · intro hsucc
    by_cases hemp : g2.P = g2.Q
    · exfalso
      have hp := SpscFifo2.pop_empty (q := (SpscFifo2.construct cap).runState ops) hc2 hemp
      rw [show (qAfter cap ops).pop.1.1 = false from by unfold qAfter; rw [hp]] at hsucc
      exact Bool.noConfusion hsucc
    · rw [hsize]; have := Nat.lt_of_le_of_ne hQP (fun hh => hemp hh.symm); omega

/-- C6 witness. -/
theorem C6_shadow_safety_witness :
    2 < W ∧ wsub (qAfter 2 [Op.push 1]).push_pos_ (qAfter 2 [Op.push 1]).pop_pos_cached_ ≤ 2 :=
  ⟨by decide, (C6_shadow_safety 2 [Op.push 1] (by decide)).2.1⟩

/-- The single-threaded scenario of claim C7: capacity 4, insert 1 2 3 4,
insert 5 fails, remove gives 1, insert 5 succeeds, four removes give
2 3 4 5, a final remove fails. -/
def scenarioOps : List (Op Nat) :=
  [Op.push 1, Op.push 2, Op.push 3, Op.push 4, Op.push 5, Op.pop, Op.push 5,
    Op.pop, Op.pop, Op.pop, Op.pop, Op.pop]

/-- The expected outcome sequence of the scenario. -/
def scenarioRes : List (Res Nat) :=
  [Res.pushR true, Res.pushR true, Res.pushR true, Res.pushR true, Res.pushR false,
    Res.popR true (some 1), Res.pushR true, Res.popR true (some 2), Res.popR true (some 3),
    Res.popR true (some 4), Res.popR true (some 5), Res.popR false none]

/-- C7: used from a single thread, SpscFifo2 produces exactly the same
outcome (success flags and popped values) as the plain non-atomic Fifo on
every operation sequence and every capacity expressible in size_type, and
both realize the concrete capacity-4 scenario of the claim. -/
theorem C7_single_thread_equivalence :
    (∀ (α : Type) (cap : Nat) (ops : List (Op α)), cap < W →
      (SpscFifo2.construct cap).runRes ops = (Fifo.construct cap).runRes ops) ∧
    (SpscFifo2.construct 4).runRes scenarioOps = scenarioRes ∧
    (Fifo.construct 4).runRes scenarioOps = scenarioRes := by
  refine ⟨?_, by decide, by decide⟩
  intro α cap ops hcapW
  exact run_equiv ops _ _ ⟨cap, 0, 0, 0, 0⟩ (SpscFifo2.ctrInv_construct cap hcapW)
    ⟨rfl, rfl, rfl, rfl⟩

/-- C7 witness. -/
theorem C7_single_thread_equivalence_witness :
    4 < W ∧ (SpscFifo2.construct 4).runRes scenarioOps = (Fifo.construct 4).runRes scenarioOps :=
  ⟨by decide, C7_single_thread_equivalence.1 Nat 4 scenarioOps (by decide)⟩

/-- C8 (amended): for every trace with at most 2^64 pushes, running the
destructor destroys exactly the still-queued elements, oldest first — the
popped outputs followed by the destructor's destructions are precisely the
successfully pushed values — each exactly once (every destroyed slot holds a
live element, and afterwards every slot is raw, i.e. the live-instance count
is zero).  (Without the push bound the claim fails: see the
counterexample.) -/
theorem C8_destructor (cap : Nat) (ops : List (Op Nat)) (hcapW : cap < W)
    (hops : pushCount ops ≤ W) :
    poppedOf cap ops ++ (qAfter cap ops).destruct.1 = (pushedOf cap ops).map some ∧
    (qAfter cap ops).destruct.2.allocation_ = List.replicate cap none := by
  obtain ⟨g2, es2, m, hc2, hb2, hgcap, hP, hm, hpop, hdrop⟩ :=
    SpscFifo2.run_master ops (SpscFifo2.construct cap) ⟨cap, 0, 0, 0, 0⟩ []
      (SpscFifo2.ctrInv_construct cap hcapW) (SpscFifo2.bufInv_construct cap hcapW)
      (by show 0 + pushCount ops ≤ W; omega)
  have hgcap2 : g2.cap = cap := hgcap
  obtain ⟨hd1, hd2⟩ := SpscFifo2.destruct_spec hb2
  have hqcap : ((SpscFifo2.construct cap).runState ops).capacity_ = cap := by
    rw [hc2.hcap, hgcap2]
  constructor
  · show poppedOf cap ops ++ ((SpscFifo2.construct cap).runState ops).destruct.1 = _
    rw [hd1, hdrop]
    unfold poppedOf pushedOf
    rw [hpop]
    simp only [List.nil_append]
    rw [← List.map_append, List.take_append_drop]
  · show ((SpscFifo2.construct cap).runState ops).destruct.2.allocation_ = _
    rw [hd2, hqcap]

/-- C8 witness. -/
theorem C8_destructor_witness :
    poppedOf 2 [Op.push 4, Op.push 5, Op.pop] ++
      (qAfter 2 [Op.push 4, Op.push 5, Op.pop]).destruct.1 =
      (pushedOf 2 [Op.push 4, Op.push 5, Op.pop]).map some :=
  (C8_destructor 2 [Op.push 4, Op.push 5, Op.pop] (by decide) (by decide)).1

theorem badOps_state : qAfter 3 badOps = ⟨3, bufN, 1, 0, 1, W - 1⟩ := by
  unfold qAfter badOps
  rw [SpscFifo2.runState_append, qBig_reached, qBig_tail_state]

/-- C8 counterexample: after the wraparound trace badOps the queue's
counters claim one occupied position but the addressed slot holds no live
element (the element 10 was overwritten and 20 already popped), so the
destructor performs one destruction on a dead slot and the lost element 10
is never destroyed: the destroyed sequence [none] is not of the form
(live elements).map some, and the conservation equation of the claim fails
on this reachable state. -/
theorem C8_counterexample :
    ¬ (poppedOf 3 badOps ++ (qAfter 3 badOps).destruct.1 = (pushedOf 3 badOps).map some ∧
       (qAfter 3 badOps).destruct.2.allocation_ = List.replicate 3 none) := by
  intro h
  obtain ⟨h1, _⟩ := h
  rw [badOps_state] at h1
  rw [show (⟨3, bufN, 1, 0, 1, W - 1⟩ : SpscFifo2 Nat).destruct.1 = [none] from by decide] at h1
  unfold poppedOf pushedOf badOps at h1
  rw [SpscFifo2.poppedValues_append, SpscFifo2.pushedValues_append, qBig_reached,
    pairs_popped, pairs_pushed, qBig_tail_popped, qBig_tail_pushed] at h1
  rw [List.map_append, List.map_replicate, List.append_assoc] at h1
  have h2 := List.append_cancel_left h1
  exact absurd h2 (by decide)

/-- C9 counterexample: the constructor of SpscFifo2 performs no validation
of its capacity argument (spsc_fifo_2.hpp lines 47-51 are a bare member
initializer list).  Construction with capacity 0 is accepted and yields a
fully formed, queryable queue object, refuting the claim that a zero
capacity is rejected at construction time rather than yielding a usable
queue object. -/
theorem C9_counterexample :
    SpscFifo2.construct (α := Nat) 0 = ⟨0, [], 0, 0, 0, 0⟩ ∧
    (SpscFifo2.construct (α := Nat) 0).isEmpty = true ∧
    ((SpscFifo2.construct (α := Nat) 0).push 5).1 = false := by
  exact ⟨rfl, by decide, by decide⟩

/-- C9 (amended): Construct(capacity) performs no capacity validation; a
zero capacity is accepted at construction and yields a degenerate but safe
queue object on which every push and every pop fails without modifying any
state.  The spec's requirement capacity > 0 is an unchecked precondition of
the implementation, not a detected misconfiguration. -/
theorem C9_no_capacity_validation :
    (SpscFifo2.construct (α := Nat) 0).capacity_ = 0 ∧
    (∀ v : Nat, (SpscFifo2.construct 0).push v = (false, SpscFifo2.construct 0)) ∧
    (SpscFifo2.construct (α := Nat) 0).pop = ((false, none), SpscFifo2.construct 0) :=
  ⟨rfl, fun _ => rfl, rfl⟩

/-- Every reachable capacity-0 state is the freshly constructed state. -/
theorem zero_cap_invariant (ops : List (Op Nat)) :
    (SpscFifo2.construct 0 : SpscFifo2 Nat).runState ops = SpscFifo2.construct 0 := by
  induction ops with
  | nil => rfl
  | cons o t ih =>
      cases o with
      | push v =>
          show SpscFifo2.runState ((SpscFifo2.construct 0).push v).2 t = _
          rw [show ((SpscFifo2.construct (α := Nat) 0).push v).2 = SpscFifo2.construct 0
            from rfl]
          exact ih
      | pop =>
          show SpscFifo2.runState (SpscFifo2.construct 0 : SpscFifo2 Nat).pop.2 t = _
          rw [show (SpscFifo2.construct (α := Nat) 0).pop.2 = SpscFifo2.construct 0 from rfl]
          exact ih

/-- C10: a queue constructed with capacity 0 is accepted without error; on
it and on every state reachable from it, isEmpty() and isFull() are both
true (size 0 equals capacity 0), every push and every pop fails returning
the state unchanged — the failure branch returns before any slot index is
computed modulo the zero capacity — no element is ever constructed, read, or
destroyed (the allocation is empty and untouched), and the destructor loop
body never executes. -/
theorem C10_zero_capacity_safe (ops : List (Op Nat)) (v : Nat) :
    qAfter 0 ops = SpscFifo2.construct 0 ∧
    (qAfter 0 ops).isEmpty = true ∧
    (qAfter 0 ops).isFull = true ∧
    (qAfter 0 ops).push v = (false, qAfter 0 ops) ∧
    (qAfter 0 ops).pop = ((false, none), qAfter 0 ops) ∧
    (qAfter 0 ops).destruct = ([], qAfter 0 ops) ∧
    (qAfter 0 ops).allocation_ = [] := by
  have h : qAfter 0 ops = SpscFifo2.construct 0 := zero_cap_invariant ops
  refine ⟨h, ?_, ?_, ?_, ?_, ?_, ?_⟩ <;> rw [h] <;> rfl
